import Mathlib

/-
Verification of the ganttify scheduling engine (`src/lib/utils.ts`:
`addWorkingDays`, `getCalendarDuration`, `processTasks`).

Embedding conventions:
* Calendar dates are day numbers: the number of days since 1970-01-01
  (the tasks carry dates with no time component, so a date is exactly a
  day count and date-fns `addDays d 1` is `d + 1`).
* `getDay` matches JS `Date.getDay` / date-fns `getDay`: 0 = Sunday,
  6 = Saturday.  Day 0 (1970-01-01) was a Thursday, hence the offset 4.
* JS `Map` objects are association lists with the newest binding first,
  JS `Set` objects are lists queried through `contains`.
* JS string `<` is lexicographic comparison of code units, embedded as
  `strLtB` on the character lists (identical on the ASCII strings involved).
* The engine throws `Error` on failure; this is an `Except EngineError`
  result, with the error payloads carrying the data interpolated into
  the thrown message strings.
-/

namespace Ganttify

/-- JS `getDay`: day of the week of a day number, 0 = Sunday … 6 = Saturday. -/
def getDay (d : Nat) : Nat := (d + 4) % 7

/-- One unit of the `while` loop of `addWorkingDays` in the source: the loop
advances `currentDate` one calendar day per iteration and decrements
`remainingDuration` only when the day reached is not a Saturday or Sunday, so
per decrement it advances to the next non-weekend day.  At most two weekend
days are consecutive, hence the bounded skip. -/
def advanceWorkingDay (d : Nat) : Nat :=
  if getDay (d + 1) = 6 then d + 3
  else if getDay (d + 1) = 0 then d + 2
  else d + 1

/-- `addWorkingDays` from the source: `remainingDuration = duration - 1`
(the start date itself counts as the first day); the loop then advances to
the next working day `remainingDuration` times.  The source returns
`startDate` unchanged when `duration - 1 < 0`, and the loop body runs zero
times when it is `0`; under truncated `Nat` subtraction both cases are
`duration - 1 = 0` and both return `startDate`.  `addWorkingDays_eq_loop`
below proves this equal to the literal day-by-day loop. -/
def addWorkingDays (startDate duration : Nat) : Nat :=
  advanceWorkingDay^[duration - 1] startDate

/-- Literal day-by-day rendering of the source's `while` loop, for the
faithfulness theorem `addWorkingDays_eq_loop`: advance one calendar day per
iteration, decrement `remaining` only on non-weekend days. -/
def addWorkingDaysLoop (currentDate remaining : Nat) : Nat :=
  if remaining = 0 then currentDate
  else
    if getDay (currentDate + 1) ≠ 0 ∧ getDay (currentDate + 1) ≠ 6 then
      addWorkingDaysLoop (currentDate + 1) (remaining - 1)
    else
      addWorkingDaysLoop (currentDate + 1) remaining
termination_by
  3 * remaining +
    (if getDay (currentDate + 1) = 6 then 2 else if getDay (currentDate + 1) = 0 then 1 else 0)
decreasing_by
  all_goals
    simp only [getDay] at *
    split_ifs <;> omega

/-- `getCalendarDuration` from the source: inclusive calendar-day span,
clamped below at 1.  On whole-day dates the millisecond arithmetic and
`Math.ceil` reduce to integer subtraction. -/
def getCalendarDuration (startDate endDate : Nat) : Nat :=
  max 1 (endDate - startDate + 1)

theorem advanceWorkingDay_lt (d : Nat) : d < advanceWorkingDay d := by
  unfold advanceWorkingDay
  split
  · omega
  · split <;> omega

theorem getDay_advanceWorkingDay (d : Nat) :
    getDay (advanceWorkingDay d) ≠ 0 ∧ getDay (advanceWorkingDay d) ≠ 6 := by
  unfold advanceWorkingDay getDay
  split_ifs <;> omega

theorem advanceWorkingDay_weekend (d : Nat) (h : getDay (d + 1) = 0 ∨ getDay (d + 1) = 6) :
    advanceWorkingDay d = advanceWorkingDay (d + 1) := by
  unfold advanceWorkingDay getDay at *
  split_ifs <;> omega

theorem le_iterate_advanceWorkingDay (d : Nat) : ∀ n, d ≤ advanceWorkingDay^[n] d := by
  intro n
  induction n generalizing d with
  | zero => simp
  | succ n ih =>
    rw [Function.iterate_succ_apply]
    exact le_trans (le_of_lt (advanceWorkingDay_lt d)) (ih _)

theorem getDay_iterate_advanceWorkingDay (d n : Nat) (hn : 1 ≤ n) :
    getDay (advanceWorkingDay^[n] d) ≠ 0 ∧ getDay (advanceWorkingDay^[n] d) ≠ 6 := by
  obtain ⟨m, rfl⟩ : ∃ m, n = m + 1 := ⟨n - 1, by omega⟩
  rw [Function.iterate_succ_apply']
  exact getDay_advanceWorkingDay _

/-- Faithfulness of the grouped definition: the literal day-by-day loop
computes iterated advancement to the next working day. -/
theorem addWorkingDaysLoop_eq_iterate (d r : Nat) :
    addWorkingDaysLoop d r = advanceWorkingDay^[r] d := by
  induction d, r using addWorkingDaysLoop.induct with
  | case1 d =>
    rw [addWorkingDaysLoop.eq_def]
    simp
  | case2 d r hr h ih =>
    rw [addWorkingDaysLoop.eq_def, if_neg hr, if_pos h, ih]
    obtain ⟨r', rfl⟩ : ∃ r', r = r' + 1 := ⟨r - 1, by omega⟩
    have hadv : advanceWorkingDay d = d + 1 := by
      unfold advanceWorkingDay
      rw [if_neg h.2, if_neg h.1]
    rw [Nat.add_sub_cancel, Function.iterate_succ_apply, hadv]
  | case3 d r hr h ih =>
    rw [addWorkingDaysLoop.eq_def, if_neg hr, if_neg h, ih]
    have hw : getDay (d + 1) = 0 ∨ getDay (d + 1) = 6 := by
      by_cases h0 : getDay (d + 1) = 0
      · exact Or.inl h0
      · refine Or.inr ?_
        by_contra h6
        exact h ⟨h0, h6⟩
    obtain ⟨r', rfl⟩ : ∃ r', r = r' + 1 := ⟨r - 1, by omega⟩
    rw [Function.iterate_succ_apply, Function.iterate_succ_apply,
      advanceWorkingDay_weekend d hw]

/-- `addWorkingDays` agrees with the literal day-by-day loop of the source. -/
theorem addWorkingDays_eq_loop (startDate duration : Nat) :
    addWorkingDays startDate duration = addWorkingDaysLoop startDate (duration - 1) := by
  rw [addWorkingDays, addWorkingDaysLoop_eq_iterate]

theorem le_addWorkingDays (s dur : Nat) : s ≤ addWorkingDays s dur :=
  le_iterate_advanceWorkingDay s _

theorem addWorkingDays_one (s : Nat) : addWorkingDays s 1 = s := rfl

theorem getDay_addWorkingDays (s dur : Nat) (h0 : getDay s ≠ 0) (h6 : getDay s ≠ 6) :
    getDay (addWorkingDays s dur) ≠ 0 ∧ getDay (addWorkingDays s dur) ≠ 6 := by
  unfold addWorkingDays
  rcases Nat.eq_zero_or_pos (dur - 1) with h | h
  · rw [h]
    exact ⟨h0, h6⟩
  · exact getDay_iterate_advanceWorkingDay s _ h

theorem getCalendarDuration_eq (s e : Nat) (h : s ≤ e) :
    getCalendarDuration s e = e - s + 1 := by
  unfold getCalendarDuration
  omega

/-- JS string `<` (lexicographic by code unit) on the underlying character
lists; kernel-computable. -/
def strLtB : List Char → List Char → Bool
  | [], [] => false
  | [], _ :: _ => true
  | _ :: _, [] => false
  | a :: as, b :: bs => if a < b then true else if b < a then false else strLtB as bs

theorem strLtB_asymm : ∀ {x y : List Char}, strLtB x y = true → strLtB y x = false
  | [], [], h => by simp [strLtB] at h
  | [], _ :: _, _ => by simp [strLtB]
  | _ :: _, [], h => by simp [strLtB] at h
  | a :: as, b :: bs, h => by
    simp only [strLtB] at h ⊢
    rcases lt_trichotomy a b with hab | hab | hab
    · rw [if_neg (lt_asymm hab), if_pos hab]
    · subst hab
      rw [if_neg (lt_irrefl a), if_neg (lt_irrefl a)] at h ⊢
      exact strLtB_asymm h
    · rw [if_neg (lt_asymm hab), if_pos hab] at h
      simp at h

theorem strLtB_trans {x : List Char} : ∀ {y z : List Char},
    strLtB x y = true → strLtB y z = true → strLtB x z = true := by
  induction x with
  | nil =>
    intro y z h1 h2
    cases z with
    | nil =>
      cases y with
      | nil => simp [strLtB] at h1
      | cons b bs => simp [strLtB] at h2
    | cons c cs => simp [strLtB]
  | cons a as ih =>
    intro y z h1 h2
    cases y with
    | nil => simp [strLtB] at h1
    | cons b bs =>
      cases z with
      | nil => simp [strLtB] at h2
      | cons c cs =>
        simp only [strLtB] at h1 h2 ⊢
        rcases lt_trichotomy a b with hab | hab | hab
        · rcases lt_trichotomy b c with hbc | hbc | hbc
          · rw [if_pos (lt_trans hab hbc)]
          · subst hbc
            rw [if_pos hab]
          · rw [if_neg (lt_asymm hbc), if_pos hbc] at h2
            simp at h2
        · subst hab
          rw [if_neg (lt_irrefl a), if_neg (lt_irrefl a)] at h1
          rcases lt_trichotomy a c with hac | hac | hac
          · rw [if_pos hac]
          · subst hac
            rw [if_neg (lt_irrefl a), if_neg (lt_irrefl a)] at h2 ⊢
            exact ih h1 h2
          · rw [if_neg (lt_asymm hac), if_pos hac] at h2
            simp at h2
        · rw [if_neg (lt_asymm hab), if_pos hab] at h1
          simp at h1

theorem strLtB_eq_of_not (x y : List Char)
    (h1 : strLtB x y = false) (h2 : strLtB y x = false) : x = y := by
  induction x generalizing y with
  | nil =>
    cases y with
    | nil => rfl
    | cons b bs => simp [strLtB] at h1
  | cons a as ih =>
    cases y with
    | nil => simp [strLtB] at h2
    | cons b bs =>
      simp only [strLtB] at h1 h2
      split_ifs at h1 h2 with hab hba
      · have hab' : a = b := le_antisymm (not_lt.mp hba) (not_lt.mp hab)
        rw [hab', ih bs h1 h2]

/-- `RawTask` from `src/lib/types.ts`: the parsed input record. -/
structure RawTask where
  id : String
  title : String
  startDate : Nat
  workingDuration : Nat
  dependencies : List String
  resource : Option String
deriving DecidableEq

/-- `Task` from `src/lib/types.ts`: `RawTask` plus `endDate` and the calendar
`duration`; after resolution `startDate` holds the effective start date
(`{...rawTask, startDate: effectiveStartDate}` in the source). -/
structure Task where
  id : String
  title : String
  startDate : Nat
  workingDuration : Nat
  dependencies : List String
  resource : Option String
  endDate : Nat
  duration : Nat
deriving DecidableEq

/-- The two failures `processTasks` throws, with the data interpolated into
the message strings. -/
inductive EngineError where
  | unknownDependency (depTitle taskTitle : String)
  | cyclicDependency (taskIds : List String)
deriving DecidableEq

/-- JS `Map.get`: first binding wins; insertion is cons, so the newest binding
for a key shadows older ones, matching `Map.set` overwrite semantics. -/
def mapGet {β : Type} : List (String × β) → String → Option β
  | [], _ => none
  | (k, v) :: rest, key => if k = key then some v else mapGet rest key

/-- `new Map(rawTasks.map(t => [t.title, t]))`: built left to right, later
entries overwriting earlier ones, hence the newest-first cons fold. -/
def buildRawTaskMap (rawTasks : List RawTask) : List (String × RawTask) :=
  rawTasks.foldl (fun m t => (t.title, t) :: m) []

/-- JS truthiness of `rawTask.resource`: `undefined` and `""` are falsy. -/
def resTruthy : Option String → Bool
  | none => false
  | some s => s != ""

/-- The source's first pass: for each task in order, for each dependency
title in order, fail on the first title absent from `rawTaskMap`. -/
def findMissingDep (rawTaskMap : List (String × RawTask)) :
    List RawTask → Option (String × String)
  | [] => none
  | t :: rest =>
    match t.dependencies.find? (fun d => (mapGet rawTaskMap d).isNone) with
    | some d => some (t.title, d)
    | none => findMissingDep rawTaskMap rest

/-- `rawTask.dependencies.every(...)`: each dependency title resolves through
`rawTaskMap` to a task whose id is truthy (non-empty) and already processed. -/
def dependenciesMet (rawTaskMap : List (String × RawTask)) (processed : List String)
    (deps : List String) : Bool :=
  deps.all fun depTitle =>
    match mapGet rawTaskMap depTitle with
    | some rt => rt.id != "" && processed.contains rt.id
    | none => false

/-- The `.map(...).filter((d): d is Date => !!d)` chain collecting the end
dates of the (resolved) dependencies. -/
def dependencyEndDates (rawTaskMap : List (String × RawTask))
    (taskMap : List (String × Task)) (deps : List String) : List Nat :=
  deps.filterMap fun depTitle =>
    match mapGet rawTaskMap depTitle with
    | some rt =>
      if rt.id != "" then (mapGet taskMap rt.id).map (·.endDate) else none
    | none => none

/-- date-fns `max` over a non-empty list of dates (never called on `[]`). -/
def listMax (l : List Nat) : Nat := l.foldl max 0

/-- The weekend adjustment of the effective start date: Sunday advances one
day, Saturday two days. -/
def weekendAdjust (d : Nat) : Nat :=
  if getDay d = 0 then d + 1
  else if getDay d = 6 then d + 2
  else d

/-- The `// Check dependency constraints` block: push `effectiveStartDate`
past the latest dependency end date (`dayAfterDependency`). -/
def depAdjustedStart (rawTaskMap : List (String × RawTask))
    (taskMap : List (String × Task)) (rawTask : RawTask) : Nat :=
  if rawTask.dependencies.length > 0 then
    if (dependencyEndDates rawTaskMap taskMap rawTask.dependencies).length > 0 then
      max rawTask.startDate
        (listMax (dependencyEndDates rawTaskMap taskMap rawTask.dependencies) + 1)
    else rawTask.startDate
  else rawTask.startDate

/-- The `// Check resource constraints` block: push `effectiveStartDate`
past the day the (truthy) resource is freed. -/
def resourceAdjustedStart (resourceEndDates : List (String × Nat))
    (rawTask : RawTask) (eff : Nat) : Nat :=
  match rawTask.resource with
  | some r =>
    if r != "" then
      match mapGet resourceEndDates r with
      | some e => max eff (e + 1)
      | none => eff
    else eff
  | none => eff

/-- The fully adjusted `effectiveStartDate`: start date, dependency
constraint, resource constraint, then the weekend adjustment, in the
source's order. -/
def effectiveStart (rawTaskMap : List (String × RawTask)) (taskMap : List (String × Task))
    (resourceEndDates : List (String × Nat)) (rawTask : RawTask) : Nat :=
  weekendAdjust
    (resourceAdjustedStart resourceEndDates rawTask
      (depAdjustedStart rawTaskMap taskMap rawTask))

/-- The body of the processing loop for one ready task: the effective start,
the end date via `addWorkingDays`, the recomputed calendar duration, and the
`{...rawTask, startDate: effectiveStartDate, ...}` record. -/
def resolveTask (rawTaskMap : List (String × RawTask)) (taskMap : List (String × Task))
    (resourceEndDates : List (String × Nat)) (rawTask : RawTask) : Task :=
  let eff := effectiveStart rawTaskMap taskMap resourceEndDates rawTask
  let endDate := addWorkingDays eff rawTask.workingDuration
  { id := rawTask.id, title := rawTask.title, startDate := eff,
    workingDuration := rawTask.workingDuration, dependencies := rawTask.dependencies,
    resource := rawTask.resource, endDate := endDate,
    duration := getCalendarDuration eff endDate }

/-- The mutable engine state of `processTasks`. -/
structure EngineState where
  processed : List String
  taskMap : List (String × Task)
  orderedTasks : List Task
  resourceEndDates : List (String × Nat)
  changed : Bool

/-- Committing a resolved `finalTask` to the engine state:
`taskMap.set(finalTask.id, finalTask)`, `orderedTasks.push(finalTask)`, the
resource ledger write (only for a truthy resource),
`processed.add(finalTask.id)` and `changedInPass = true`. -/
def commitTask (st : EngineState) (finalTask : Task) : EngineState :=
  { processed := finalTask.id :: st.processed,
    taskMap := (finalTask.id, finalTask) :: st.taskMap,
    orderedTasks := st.orderedTasks ++ [finalTask],
    resourceEndDates :=
      match finalTask.resource with
      | some r =>
        if r != "" then (r, finalTask.endDate) :: st.resourceEndDates
        else st.resourceEndDates
      | none => st.resourceEndDates,
    changed := true }

/-- One step of the inner `for` loop: skip already-processed tasks, resolve a
task whose dependencies are met, and commit it to the state. -/
def processOne (rawTaskMap : List (String × RawTask)) (st : EngineState)
    (rawTask : RawTask) : EngineState :=
  if st.processed.contains rawTask.id then st
  else if dependenciesMet rawTaskMap st.processed rawTask.dependencies then
    commitTask st (resolveTask rawTaskMap st.taskMap st.resourceEndDates rawTask)
  else st

/-- One pass of the `while` loop: reset `changedInPass`, then run the `for`
loop over the raw tasks in input order. -/
def runPass (rawTaskMap : List (String × RawTask)) (rawTasks : List RawTask)
    (st : EngineState) : EngineState :=
  rawTasks.foldl (processOne rawTaskMap) { st with changed := false }

/-- The `while (orderedTasks.length < rawTasks.length && changedInPass)` loop.
The fuel only bounds the number of passes; `finalState_exit` below shows
`rawTasks.length + 1` passes always reach the loop's genuine exit
condition, so the fuelled loop equals the source's unbounded loop. -/
def processLoop (rawTaskMap : List (String × RawTask)) (rawTasks : List RawTask) :
    Nat → EngineState → EngineState
  | 0, st => st
  | fuel + 1, st =>
    if st.orderedTasks.length < rawTasks.length ∧ st.changed = true then
      processLoop rawTaskMap rawTasks fuel (runPass rawTaskMap rawTasks st)
    else st

/-- The state at the top of `processTasks`: everything empty,
`changedInPass = true`. -/
def initState : EngineState :=
  { processed := [], taskMap := [], orderedTasks := [], resourceEndDates := [],
    changed := true }

/-- The engine state after the relaxation loop finishes. -/
def finalState (rawTasks : List RawTask) : EngineState :=
  processLoop (buildRawTaskMap rawTasks) rawTasks (rawTasks.length + 1) initState

/-- `a.resource || 'zzzzzz'`: falsy (absent or empty) resources take the
sentinel key. -/
def resKey : Option String → String
  | none => "zzzzzz"
  | some s => if s != "" then s else "zzzzzz"

/-- The final sort comparator as a total preorder: the stable JS
`sort((a, b) => ...)` with comparator `resource` (string `<`) then
`startDate` difference equals a stable merge sort with
`cmp(a, b) <= 0` as the `le` relation. -/
def taskLE (a b : Task) : Bool :=
  if strLtB (resKey a.resource).data (resKey b.resource).data then true
  else if strLtB (resKey b.resource).data (resKey a.resource).data then false
  else a.startDate ≤ b.startDate

/-- `taskLE` as a decidable relation, for the stable sort. -/
def taskLEP (a b : Task) : Prop := taskLE a b = true

instance : DecidableRel taskLEP := fun a b =>
  inferInstanceAs (Decidable (taskLE a b = true))

/-- `processTasks` from the source: dependency pre-check, fixed-point
relaxation, cyclic-dependency check, final display sort.  JS `Array.sort`
is specified to be a stable sort with respect to the comparator; the stable
sort of a list under a total preorder is unique, rendered here by the stable
`List.insertionSort`. -/
def processTasks (rawTasks : List RawTask) : Except EngineError (List Task) :=
  let rawTaskMap := buildRawTaskMap rawTasks
  match findMissingDep rawTaskMap rawTasks with
  | some (taskTitle, depTitle) => .error (.unknownDependency depTitle taskTitle)
  | none =>
    let final := finalState rawTasks
    if final.orderedTasks.length < rawTasks.length then
      .error (.cyclicDependency
        ((rawTasks.filter fun t => !(final.processed.contains t.id)).map (·.id)))
    else
      .ok (List.insertionSort taskLEP final.orderedTasks)

theorem contains_iff_mem {l : List String} {a : String} :
    l.contains a = true ↔ a ∈ l := by
  simp [List.contains]

theorem mapGet_cons_self {β : Type} (k : String) (v : β) (rest : List (String × β)) :
    mapGet ((k, v) :: rest) k = some v := by
  simp [mapGet]

theorem mapGet_cons_ne {β : Type} {k key : String} (v : β) (rest : List (String × β))
    (h : k ≠ key) : mapGet ((k, v) :: rest) key = mapGet rest key := by
  simp [mapGet, h]

theorem buildRawTaskMap_aux {d : String} {rt : RawTask} :
    ∀ (l : List RawTask) (acc : List (String × RawTask)),
      mapGet (l.foldl (fun m t => (t.title, t) :: m) acc) d = some rt →
      (rt ∈ l ∧ rt.title = d) ∨ mapGet acc d = some rt := by
  intro l
  induction l with
  | nil =>
    intro acc h
    exact Or.inr h
  | cons t rest ih =>
    intro acc h
    rcases ih ((t.title, t) :: acc) h with h' | h'
    · exact Or.inl ⟨List.mem_cons_of_mem _ h'.1, h'.2⟩
    · by_cases ht : t.title = d
      · rw [mapGet, if_pos ht] at h'
        injection h' with heq
        subst heq
        exact Or.inl ⟨List.mem_cons_self _ _, ht⟩
      · rw [mapGet, if_neg ht] at h'
        exact Or.inr h'

theorem buildRawTaskMap_some {raw : List RawTask} {d : String} {rt : RawTask}
    (h : mapGet (buildRawTaskMap raw) d = some rt) : rt ∈ raw ∧ rt.title = d := by
  rcases buildRawTaskMap_aux raw [] h with h' | h'
  · exact h'
  · simp [mapGet] at h'

theorem buildRawTaskMap_isSome_aux {d : String} :
    ∀ (l : List RawTask) (acc : List (String × RawTask)),
      ((∃ u ∈ l, u.title = d) ∨ (mapGet acc d).isSome) →
      (mapGet (l.foldl (fun m t => (t.title, t) :: m) acc) d).isSome := by
  intro l
  induction l with
  | nil =>
    intro acc h
    rcases h with ⟨u, hu, _⟩ | h
    · exact absurd hu (List.not_mem_nil u)
    · exact h
  | cons t rest ih =>
    intro acc h
    refine ih ((t.title, t) :: acc) ?_
    by_cases ht : t.title = d
    · refine Or.inr ?_
      rw [mapGet, if_pos ht]
      rfl
    · rcases h with ⟨u, hu, hud⟩ | h
      · rcases List.mem_cons.mp hu with rfl | hu'
        · exact absurd hud ht
        · exact Or.inl ⟨u, hu', hud⟩
      · refine Or.inr ?_
        rw [mapGet, if_neg ht]
        exact h

theorem buildRawTaskMap_isSome {raw : List RawTask} {d : String}
    (h : ∃ u ∈ raw, u.title = d) : (mapGet (buildRawTaskMap raw) d).isSome :=
  buildRawTaskMap_isSome_aux raw [] (Or.inl h)

theorem findMissingDep_none_iff (m : List (String × RawTask)) :
    ∀ l : List RawTask, findMissingDep m l = none ↔
      ∀ t ∈ l, ∀ d ∈ t.dependencies, (mapGet m d).isSome := by
  intro l
  induction l with
  | nil => simp [findMissingDep]
  | cons t rest ih =>
    rw [findMissingDep]
    cases hf : t.dependencies.find? (fun d => (mapGet m d).isNone) with
    | some d =>
      simp only [reduceCtorEq, false_iff]
      intro hall
      have hd := List.find?_some hf
      have hmem := List.mem_of_find?_eq_some hf
      have := hall t (List.mem_cons_self t rest) d hmem
      rw [Option.isNone_iff_eq_none] at hd
      rw [hd] at this
      simp at this
    | none =>
      rw [ih]
      constructor
      · intro hall u hu d hd
        rcases List.mem_cons.mp hu with rfl | hu'
        · have := List.find?_eq_none.mp hf d hd
          simp only [Option.isNone_iff_eq_none] at this
          cases hmd : mapGet m d with
          | none => exact absurd hmd this
          | some _ => rfl
        · exact hall u hu' d hd
      · intro hall u hu d hd
        exact hall u (List.mem_cons_of_mem t hu) d hd

theorem findMissingDep_some {m : List (String × RawTask)} {tt dd : String} :
    ∀ {l : List RawTask}, findMissingDep m l = some (tt, dd) →
      (∃ t ∈ l, t.title = tt ∧ dd ∈ t.dependencies) ∧ mapGet m dd = none := by
  intro l
  induction l with
  | nil => intro h; simp [findMissingDep] at h
  | cons t rest ih =>
    intro h
    rw [findMissingDep] at h
    cases hf : t.dependencies.find? (fun d => (mapGet m d).isNone) with
    | some d =>
      rw [hf] at h
      cases h
      have hd := List.find?_some hf
      have hmem := List.mem_of_find?_eq_some hf
      simp only [Option.isNone_iff_eq_none] at hd
      exact ⟨⟨t, List.mem_cons_self t rest, rfl, hmem⟩, hd⟩
    | none =>
      rw [hf] at h
      obtain ⟨⟨u, hu, hut, hud⟩, hnone⟩ := ih h
      exact ⟨⟨u, List.mem_cons_of_mem t hu, hut, hud⟩, hnone⟩

theorem le_foldl_max (l : List Nat) : ∀ init : Nat, init ≤ l.foldl max init := by
  induction l with
  | nil => intro init; exact le_refl _
  | cons b bs ih =>
    intro init
    exact le_trans (Nat.le_max_left init b) (ih (max init b))

theorem mem_le_listMax {a : Nat} {l : List Nat} (h : a ∈ l) : a ≤ listMax l := by
  unfold listMax
  generalize hinit : (0 : Nat) = init
  clear hinit
  induction l generalizing init with
  | nil => exact absurd h (List.not_mem_nil a)
  | cons b bs ih =>
    rcases List.mem_cons.mp h with rfl | h'
    · exact le_trans (Nat.le_max_right init a) (le_foldl_max bs (max init a))
    · exact ih h' (max init b)

theorem dependenciesMet_spec {m : List (String × RawTask)} {p : List String}
    {deps : List String} (h : dependenciesMet m p deps = true) :
    ∀ d ∈ deps, ∃ rt, mapGet m d = some rt ∧ rt.id ≠ "" ∧ rt.id ∈ p := by
  intro d hd
  have := List.all_eq_true.mp h d hd
  cases hmd : mapGet m d with
  | none => rw [hmd] at this; simp at this
  | some rt =>
    rw [hmd, Bool.and_eq_true] at this
    refine ⟨rt, rfl, ?_, ?_⟩
    · exact bne_iff_ne.mp this.1
    · exact contains_iff_mem.mp this.2

theorem mem_dependencyEndDates {m : List (String × RawTask)} {tm : List (String × Task)}
    {deps : List String} {d : String} {rt : RawTask} {v : Task}
    (hd : d ∈ deps) (hrt : mapGet m d = some rt) (hid : rt.id ≠ "")
    (hv : mapGet tm rt.id = some v) :
    v.endDate ∈ dependencyEndDates m tm deps := by
  unfold dependencyEndDates
  refine List.mem_filterMap.mpr ⟨d, hd, ?_⟩
  rw [hrt]
  simp only [bne_iff_ne, ne_eq, hid, not_false_eq_true, if_true, hv, Option.map_some']

theorem weekendAdjust_ge (d : Nat) : d ≤ weekendAdjust d := by
  unfold weekendAdjust
  split_ifs <;> omega

theorem weekendAdjust_weekday (d : Nat) :
    getDay (weekendAdjust d) ≠ 0 ∧ getDay (weekendAdjust d) ≠ 6 := by
  unfold weekendAdjust getDay
  split_ifs <;> omega

theorem le_depAdjustedStart (m : List (String × RawTask)) (tm : List (String × Task))
    (r : RawTask) : r.startDate ≤ depAdjustedStart m tm r := by
  unfold depAdjustedStart
  split_ifs with h1 h2
  · exact Nat.le_max_left _ _
  · exact le_refl _
  · exact le_refl _

theorem depAdjustedStart_gt {m : List (String × RawTask)} {tm : List (String × Task)}
    {r : RawTask} {x : Nat} (hx : x ∈ dependencyEndDates m tm r.dependencies)
    (hne : r.dependencies.length > 0) : x < depAdjustedStart m tm r := by
  unfold depAdjustedStart
  rw [if_pos hne]
  have hlen : (dependencyEndDates m tm r.dependencies).length > 0 :=
    List.length_pos.mpr (List.ne_nil_of_mem hx)
  rw [if_pos hlen]
  have := mem_le_listMax hx
  omega

theorem le_resourceAdjustedStart (L : List (String × Nat)) (r : RawTask) (eff : Nat) :
    eff ≤ resourceAdjustedStart L r eff := by
  unfold resourceAdjustedStart
  cases r.resource with
  | none => exact le_refl _
  | some ρ =>
    dsimp only
    split_ifs with h
    · cases mapGet L ρ with
      | none => exact le_refl _
      | some e => exact Nat.le_max_left _ _
    · exact le_refl _

theorem resourceAdjustedStart_gt {L : List (String × Nat)} {r : RawTask} {ρ : String}
    {e : Nat} (eff : Nat) (hρ : r.resource = some ρ) (hne : ρ ≠ "")
    (hL : mapGet L ρ = some e) : e < resourceAdjustedStart L r eff := by
  unfold resourceAdjustedStart
  rw [hρ]
  dsimp only
  rw [if_pos (bne_iff_ne.mpr hne), hL]
  dsimp only
  exact lt_of_lt_of_le (Nat.lt_succ_self e) (Nat.le_max_right _ _)

theorem resolveTask_id (m : List (String × RawTask)) (tm : List (String × Task))
    (L : List (String × Nat)) (r : RawTask) : (resolveTask m tm L r).id = r.id := rfl

theorem resolveTask_title (m : List (String × RawTask)) (tm : List (String × Task))
    (L : List (String × Nat)) (r : RawTask) : (resolveTask m tm L r).title = r.title := rfl

theorem resolveTask_workingDuration (m : List (String × RawTask)) (tm : List (String × Task))
    (L : List (String × Nat)) (r : RawTask) :
    (resolveTask m tm L r).workingDuration = r.workingDuration := rfl

theorem resolveTask_dependencies (m : List (String × RawTask)) (tm : List (String × Task))
    (L : List (String × Nat)) (r : RawTask) :
    (resolveTask m tm L r).dependencies = r.dependencies := rfl

theorem resolveTask_resource (m : List (String × RawTask)) (tm : List (String × Task))
    (L : List (String × Nat)) (r : RawTask) :
    (resolveTask m tm L r).resource = r.resource := rfl

theorem resolveTask_startDate (m : List (String × RawTask)) (tm : List (String × Task))
    (L : List (String × Nat)) (r : RawTask) :
    (resolveTask m tm L r).startDate = effectiveStart m tm L r := rfl

theorem resolveTask_endDate (m : List (String × RawTask)) (tm : List (String × Task))
    (L : List (String × Nat)) (r : RawTask) :
    (resolveTask m tm L r).endDate =
      addWorkingDays (resolveTask m tm L r).startDate r.workingDuration := rfl

theorem resolveTask_duration (m : List (String × RawTask)) (tm : List (String × Task))
    (L : List (String × Nat)) (r : RawTask) :
    (resolveTask m tm L r).duration =
      getCalendarDuration (resolveTask m tm L r).startDate (resolveTask m tm L r).endDate := rfl

theorem resolveTask_start_ge (m : List (String × RawTask)) (tm : List (String × Task))
    (L : List (String × Nat)) (r : RawTask) :
    r.startDate ≤ (resolveTask m tm L r).startDate := by
  rw [resolveTask_startDate]
  unfold effectiveStart
  exact le_trans (le_depAdjustedStart m tm r)
    (le_trans (le_resourceAdjustedStart L r _) (weekendAdjust_ge _))

theorem resolveTask_start_weekday (m : List (String × RawTask)) (tm : List (String × Task))
    (L : List (String × Nat)) (r : RawTask) :
    getDay (resolveTask m tm L r).startDate ≠ 0 ∧
      getDay (resolveTask m tm L r).startDate ≠ 6 := by
  rw [resolveTask_startDate]
  exact weekendAdjust_weekday _

theorem resolveTask_start_le_end (m : List (String × RawTask)) (tm : List (String × Task))
    (L : List (String × Nat)) (r : RawTask) :
    (resolveTask m tm L r).startDate ≤ (resolveTask m tm L r).endDate := by
  rw [resolveTask_endDate]
  exact le_addWorkingDays _ _

theorem resolveTask_start_gt_dep {m : List (String × RawTask)} {tm : List (String × Task)}
    {L : List (String × Nat)} {r : RawTask} {x : Nat}
    (hx : x ∈ dependencyEndDates m tm r.dependencies)
    (hne : r.dependencies.length > 0) : x < (resolveTask m tm L r).startDate := by
  rw [resolveTask_startDate]
  unfold effectiveStart
  exact lt_of_lt_of_le (depAdjustedStart_gt hx hne)
    (le_trans (le_resourceAdjustedStart L r _) (weekendAdjust_ge _))

theorem resolveTask_start_gt_ledger {m : List (String × RawTask)} {tm : List (String × Task)}
    {L : List (String × Nat)} {r : RawTask} {ρ : String} {e : Nat}
    (hρ : r.resource = some ρ) (hne : ρ ≠ "") (hL : mapGet L ρ = some e) :
    e < (resolveTask m tm L r).startDate := by
  rw [resolveTask_startDate]
  unfold effectiveStart
  exact lt_of_lt_of_le (resourceAdjustedStart_gt _ hρ hne hL) (weekendAdjust_ge _)

/-- Tasks with a falsy `resource` are unconstrained by the resource ledger:
`resolveTask` does not depend on it. -/
theorem resolveTask_ledger_irrelevant (m : List (String × RawTask))
    (tm : List (String × Task)) (L₁ L₂ : List (String × Nat)) (r : RawTask)
    (h : resTruthy r.resource = false) :
    resolveTask m tm L₁ r = resolveTask m tm L₂ r := by
  have key : resourceAdjustedStart L₁ r (depAdjustedStart m tm r) =
      resourceAdjustedStart L₂ r (depAdjustedStart m tm r) := by
    unfold resourceAdjustedStart
    cases hρ : r.resource with
    | none => rfl
    | some ρ =>
      have h' : (ρ != "") = false := by
        unfold resTruthy at h
        rw [hρ] at h
        exact h
      dsimp only
      rw [h', if_neg Bool.false_ne_true, if_neg Bool.false_ne_true]
  unfold resolveTask effectiveStart
  rw [key]

theorem commitTask_processed (st : EngineState) (t : Task) :
    (commitTask st t).processed = t.id :: st.processed := rfl

theorem commitTask_taskMap (st : EngineState) (t : Task) :
    (commitTask st t).taskMap = (t.id, t) :: st.taskMap := rfl

theorem commitTask_orderedTasks (st : EngineState) (t : Task) :
    (commitTask st t).orderedTasks = st.orderedTasks ++ [t] := rfl

theorem commitTask_ledger_truthy (st : EngineState) (t : Task) (ρ : String)
    (h : t.resource = some ρ) (hne : ρ ≠ "") :
    (commitTask st t).resourceEndDates = (ρ, t.endDate) :: st.resourceEndDates := by
  unfold commitTask
  rw [h]
  dsimp only
  rw [if_pos (bne_iff_ne.mpr hne)]

theorem commitTask_ledger_falsy (st : EngineState) (t : Task)
    (h : resTruthy t.resource = false) :
    (commitTask st t).resourceEndDates = st.resourceEndDates := by
  unfold commitTask
  cases hρ : t.resource with
  | none => rfl
  | some ρ =>
    have h' : (ρ != "") = false := by
      unfold resTruthy at h
      rw [hρ] at h
      exact h
    dsimp only
    rw [h', if_neg Bool.false_ne_true]

theorem pairwise_append_singleton {R : Task → Task → Prop} {l : List Task} {t : Task}
    (hl : l.Pairwise R) (ht : ∀ u ∈ l, R u t) : (l ++ [t]).Pairwise R :=
  List.pairwise_append.mpr ⟨hl, List.pairwise_singleton R t, fun a ha b hb => by
    rw [List.mem_singleton.mp hb]; exact ht a ha⟩

/-- The master invariant of the engine state during the relaxation loop,
relative to the raw input `raw` (with its title map `buildRawTaskMap raw`):
the processed set, the task map and the ordered output list are consistent,
every resolved task descends from a raw task with the scheduling constraints
satisfied, and the resource ledger dominates the end dates of the tasks
committed for each truthy resource. -/
structure Inv (raw : List RawTask) (st : EngineState) : Prop where
  proc_tm : ∀ i, i ∈ st.processed → ∃ u, mapGet st.taskMap i = some u
  tm_proc : ∀ i u, mapGet st.taskMap i = some u → i ∈ st.processed
  tm_id : ∀ i u, mapGet st.taskMap i = some u → u.id = i
  tm_mem : ∀ i u, mapGet st.taskMap i = some u → u ∈ st.orderedTasks
  ord_tm : ∀ u ∈ st.orderedTasks, mapGet st.taskMap u.id = some u
  ord_raw : ∀ u ∈ st.orderedTasks, ∃ r ∈ raw, u.id = r.id ∧ u.title = r.title ∧
    u.workingDuration = r.workingDuration ∧ u.dependencies = r.dependencies ∧
    u.resource = r.resource ∧ r.startDate ≤ u.startDate
  ord_weekday : ∀ u ∈ st.orderedTasks, getDay u.startDate ≠ 0 ∧ getDay u.startDate ≠ 6
  ord_end : ∀ u ∈ st.orderedTasks,
    u.endDate = addWorkingDays u.startDate u.workingDuration ∧
    u.duration = getCalendarDuration u.startDate u.endDate ∧
    u.startDate ≤ u.endDate
  ord_deps : ∀ u ∈ st.orderedTasks, ∀ d ∈ u.dependencies,
    ∃ rt, mapGet (buildRawTaskMap raw) d = some rt ∧
      ∃ v, mapGet st.taskMap rt.id = some v ∧ v.endDate < u.startDate
  ledger_src : ∀ ρ e, mapGet st.resourceEndDates ρ = some e →
    ρ ≠ "" ∧ ∃ u ∈ st.orderedTasks, u.resource = some ρ
  ledger_max : ∀ u ∈ st.orderedTasks, ∀ ρ, u.resource = some ρ → ρ ≠ "" →
    ∃ e, mapGet st.resourceEndDates ρ = some e ∧ u.endDate ≤ e
  ord_chain : st.orderedTasks.Pairwise fun t u => ∀ ρ,
    t.resource = some ρ → u.resource = some ρ → ρ ≠ "" → t.endDate < u.startDate

theorem commitTask_inv (raw : List RawTask) (st : EngineState) (rτ : RawTask)
    (hmem : rτ ∈ raw) (hcnot : rτ.id ∉ st.processed)
    (hdm : dependenciesMet (buildRawTaskMap raw) st.processed rτ.dependencies = true)
    (h : Inv raw st) :
    Inv raw (commitTask st (resolveTask (buildRawTaskMap raw) st.taskMap
      st.resourceEndDates rτ)) := by
  set m := buildRawTaskMap raw with hm_def
  set t := resolveTask m st.taskMap st.resourceEndDates rτ with ht_def
  have hid : t.id = rτ.id := rfl
  have hdepv : ∀ d ∈ rτ.dependencies, ∃ rt, mapGet m d = some rt ∧ rt.id ∈ st.processed ∧
      ∃ v, mapGet st.taskMap rt.id = some v ∧ v.endDate < t.startDate := by
    intro d hd
    obtain ⟨rt, hrt, hid', hp⟩ := dependenciesMet_spec hdm d hd
    obtain ⟨v, hv⟩ := h.proc_tm rt.id hp
    refine ⟨rt, hrt, hp, v, hv, ?_⟩
    have hmm : v.endDate ∈ dependencyEndDates m st.taskMap rτ.dependencies :=
      mem_dependencyEndDates hd hrt hid' hv
    have hlen : rτ.dependencies.length > 0 :=
      List.length_pos.mpr (List.ne_nil_of_mem hd)
    exact resolveTask_start_gt_dep hmm hlen
  have hchain_new : ∀ u ∈ st.orderedTasks, ∀ ρ,
      u.resource = some ρ → t.resource = some ρ → ρ ≠ "" → u.endDate < t.startDate := by
    intro u hu ρ huρ htρ hρne
    obtain ⟨e, hLe, hue⟩ := h.ledger_max u hu ρ huρ hρne
    have hlt : e < t.startDate := resolveTask_start_gt_ledger htρ hρne hLe
    omega
  have hstle : t.startDate ≤ t.endDate := resolveTask_start_le_end m st.taskMap st.resourceEndDates rτ
  refine ⟨?_, ?_, ?_, ?_, ?_, ?_, ?_, ?_, ?_, ?_, ?_, ?_⟩
  · -- proc_tm
    rw [commitTask_processed, commitTask_taskMap]
    intro i hi
    rcases List.mem_cons.mp hi with rfl | hi'
    · exact ⟨t, mapGet_cons_self _ _ _⟩
    · obtain ⟨u, hu⟩ := h.proc_tm i hi'
      by_cases hit : t.id = i
      · subst hit
        exact ⟨t, mapGet_cons_self _ _ _⟩
      · exact ⟨u, by rw [mapGet_cons_ne _ _ hit]; exact hu⟩
  · -- tm_proc
    rw [commitTask_processed, commitTask_taskMap]
    intro i u hu
    by_cases hit : t.id = i
    · subst hit
      exact List.mem_cons_self _ _
    · rw [mapGet_cons_ne _ _ hit] at hu
      exact List.mem_cons_of_mem _ (h.tm_proc i u hu)
  · -- tm_id
    rw [commitTask_taskMap]
    intro i u hu
    by_cases hit : t.id = i
    · subst hit
      rw [mapGet_cons_self] at hu
      injection hu with hu'
      rw [← hu']
    · rw [mapGet_cons_ne _ _ hit] at hu
      exact h.tm_id i u hu
  · -- tm_mem
    rw [commitTask_taskMap, commitTask_orderedTasks]
    intro i u hu
    by_cases hit : t.id = i
    · subst hit
      rw [mapGet_cons_self] at hu
      injection hu with hu'
      rw [← hu']
      exact List.mem_append_right _ (List.mem_singleton_self t)
    · rw [mapGet_cons_ne _ _ hit] at hu
      exact List.mem_append_left _ (h.tm_mem i u hu)
  · -- ord_tm
    rw [commitTask_taskMap, commitTask_orderedTasks]
    intro u hu
    rcases List.mem_append.mp hu with hu' | hu'
    · have keymem : u.id ∈ st.processed := h.tm_proc u.id u (h.ord_tm u hu')
      have hne : t.id ≠ u.id := by
        intro heq
        apply hcnot
        rw [← heq] at keymem
        exact keymem
      rw [mapGet_cons_ne _ _ hne]
      exact h.ord_tm u hu'
    · rw [List.mem_singleton.mp hu']
      exact mapGet_cons_self _ _ _
  · -- ord_raw
    rw [commitTask_orderedTasks]
    intro u hu
    rcases List.mem_append.mp hu with hu' | hu'
    · exact h.ord_raw u hu'
    · rw [List.mem_singleton.mp hu']
      exact ⟨rτ, hmem, rfl, rfl, rfl, rfl, rfl,
        resolveTask_start_ge m st.taskMap st.resourceEndDates rτ⟩
  · -- ord_weekday
    rw [commitTask_orderedTasks]
    intro u hu
    rcases List.mem_append.mp hu with hu' | hu'
    · exact h.ord_weekday u hu'
    · rw [List.mem_singleton.mp hu']
      exact resolveTask_start_weekday m st.taskMap st.resourceEndDates rτ
  · -- ord_end
    rw [commitTask_orderedTasks]
    intro u hu
    rcases List.mem_append.mp hu with hu' | hu'
    · exact h.ord_end u hu'
    · rw [List.mem_singleton.mp hu']
      exact ⟨rfl, rfl, hstle⟩
  · -- ord_deps
    rw [commitTask_taskMap, commitTask_orderedTasks]
    intro u hu d hd
    rcases List.mem_append.mp hu with hu' | hu'
    · obtain ⟨rt, hrt, v, hv, hlt⟩ := h.ord_deps u hu' d hd
      refine ⟨rt, hrt, v, ?_, hlt⟩
      have hne : t.id ≠ rt.id := by
        intro heq
        apply hcnot
        have hp := h.tm_proc rt.id v hv
        rw [← heq] at hp
        exact hp
      rw [mapGet_cons_ne _ _ hne]
      exact hv
    · rw [List.mem_singleton.mp hu'] at hd ⊢
      obtain ⟨rt, hrt, hp, v, hv, hlt⟩ := hdepv d hd
      refine ⟨rt, hrt, v, ?_, hlt⟩
      have hne : t.id ≠ rt.id := by
        intro heq
        apply hcnot
        rw [← heq] at hp
        exact hp
      rw [mapGet_cons_ne _ _ hne]
      exact hv
  · -- ledger_src
    rw [commitTask_orderedTasks]
    rcases htρ : t.resource with _ | ρt
    · rw [commitTask_ledger_falsy st t (by unfold resTruthy; rw [htρ])]
      intro ρ e hρe
      obtain ⟨hρne, u, hu, huρ⟩ := h.ledger_src ρ e hρe
      exact ⟨hρne, u, List.mem_append_left _ hu, huρ⟩
    · by_cases hρt : ρt = ""
      · subst hρt
        rw [commitTask_ledger_falsy st t (by unfold resTruthy; rw [htρ]; rfl)]
        intro ρ e hρe
        obtain ⟨hρne, u, hu, huρ⟩ := h.ledger_src ρ e hρe
        exact ⟨hρne, u, List.mem_append_left _ hu, huρ⟩
      · rw [commitTask_ledger_truthy st t ρt htρ hρt]
        intro ρ e hρe
        by_cases hρρ : ρt = ρ
        · subst hρρ
          exact ⟨hρt, t, List.mem_append_right _ (List.mem_singleton_self t), htρ⟩
        · rw [mapGet_cons_ne _ _ hρρ] at hρe
          obtain ⟨hρne, u, hu, huρ⟩ := h.ledger_src ρ e hρe
          exact ⟨hρne, u, List.mem_append_left _ hu, huρ⟩
  · -- ledger_max
    rw [commitTask_orderedTasks]
    rcases htρ : t.resource with _ | ρt
    · rw [commitTask_ledger_falsy st t (by unfold resTruthy; rw [htρ])]
      intro u hu ρ huρ hρne
      rcases List.mem_append.mp hu with hu' | hu'
      · exact h.ledger_max u hu' ρ huρ hρne
      · rw [List.mem_singleton.mp hu'] at huρ
        rw [htρ] at huρ
        cases huρ
    · by_cases hρt : ρt = ""
      · subst hρt
        rw [commitTask_ledger_falsy st t (by unfold resTruthy; rw [htρ]; rfl)]
        intro u hu ρ huρ hρne
        rcases List.mem_append.mp hu with hu' | hu'
        · exact h.ledger_max u hu' ρ huρ hρne
        · rw [List.mem_singleton.mp hu'] at huρ
          rw [htρ] at huρ
          injection huρ with huρ'
          exact absurd huρ'.symm hρne
      · rw [commitTask_ledger_truthy st t ρt htρ hρt]
        intro u hu ρ huρ hρne
        rcases List.mem_append.mp hu with hu' | hu'
        · obtain ⟨e, hLe, hue⟩ := h.ledger_max u hu' ρ huρ hρne
          by_cases hρρ : ρt = ρ
          · subst hρρ
            refine ⟨t.endDate, mapGet_cons_self _ _ _, ?_⟩
            have h1 : e < t.startDate := resolveTask_start_gt_ledger htρ hρt hLe
            omega
          · rw [mapGet_cons_ne _ _ hρρ]
            exact ⟨e, hLe, hue⟩
        · rw [List.mem_singleton.mp hu'] at huρ
          rw [htρ] at huρ
          injection huρ with huρ'
          subst huρ'
          rw [List.mem_singleton.mp hu']
          exact ⟨t.endDate, mapGet_cons_self _ _ _, le_refl _⟩
  · -- ord_chain
    rw [commitTask_orderedTasks]
    exact pairwise_append_singleton h.ord_chain fun u hu ρ huρ htρ hρne =>
      hchain_new u hu ρ huρ htρ hρne

theorem processOne_inv (raw : List RawTask) (st : EngineState) (rτ : RawTask)
    (hmem : rτ ∈ raw) (h : Inv raw st) :
    Inv raw (processOne (buildRawTaskMap raw) st rτ) := by
  unfold processOne
  by_cases hc : st.processed.contains rτ.id = true
  · rw [if_pos hc]
    exact h
  · rw [if_neg hc]
    by_cases hdm : dependenciesMet (buildRawTaskMap raw) st.processed rτ.dependencies = true
    · rw [if_pos hdm]
      exact commitTask_inv raw st rτ hmem (fun hmm => hc (contains_iff_mem.mpr hmm)) hdm h
    · rw [if_neg hdm]
      exact h

theorem initState_inv (raw : List RawTask) : Inv raw initState := by
  refine ⟨?_, ?_, ?_, ?_, ?_, ?_, ?_, ?_, ?_, ?_, ?_, ?_⟩ <;>
    simp [initState, mapGet]

theorem foldl_processOne_inv (raw : List RawTask) :
    ∀ (l : List RawTask), (∀ x ∈ l, x ∈ raw) → ∀ (st : EngineState), Inv raw st →
      Inv raw (l.foldl (processOne (buildRawTaskMap raw)) st) := by
  intro l
  induction l with
  | nil =>
    intro _ st h
    exact h
  | cons x xs ih =>
    intro hsub st h
    rw [List.foldl_cons]
    exact ih (fun y hy => hsub y (List.mem_cons_of_mem x hy))
      _ (processOne_inv raw st x (hsub x (List.mem_cons_self x xs)) h)

theorem inv_changed (raw : List RawTask) (st : EngineState) (b : Bool) (h : Inv raw st) :
    Inv raw { st with changed := b } :=
  ⟨h.proc_tm, h.tm_proc, h.tm_id, h.tm_mem, h.ord_tm, h.ord_raw, h.ord_weekday,
    h.ord_end, h.ord_deps, h.ledger_src, h.ledger_max, h.ord_chain⟩

theorem runPass_inv (raw : List RawTask) (st : EngineState) (h : Inv raw st) :
    Inv raw (runPass (buildRawTaskMap raw) raw st) :=
  foldl_processOne_inv raw raw (fun _ hx => hx) _ (inv_changed raw st false h)

theorem processLoop_inv (raw : List RawTask) :
    ∀ (fuel : Nat) (st : EngineState), Inv raw st →
      Inv raw (processLoop (buildRawTaskMap raw) raw fuel st) := by
  intro fuel
  induction fuel with
  | zero =>
    intro st h
    exact h
  | succ fuel ih =>
    intro st h
    rw [processLoop]
    split_ifs with hcond
    · exact ih _ (runPass_inv raw st h)
    · exact h

theorem finalState_inv (raw : List RawTask) : Inv raw (finalState raw) :=
  processLoop_inv raw _ initState (initState_inv raw)

theorem processOne_ordered_mono (m : List (String × RawTask)) (st : EngineState)
    (rτ : RawTask) :
    st.orderedTasks.length ≤ (processOne m st rτ).orderedTasks.length := by
  unfold processOne
  split_ifs with h1 h2
  · exact le_refl _
  · rw [commitTask_orderedTasks]
    simp
  · exact le_refl _

theorem processOne_changed (m : List (String × RawTask)) (st : EngineState)
    (rτ : RawTask) (h : (processOne m st rτ).changed = true) :
    st.changed = true ∨ st.orderedTasks.length < (processOne m st rτ).orderedTasks.length := by
  unfold processOne at h ⊢
  split_ifs at h ⊢ with h1 h2
  · exact Or.inl h
  · refine Or.inr ?_
    rw [commitTask_orderedTasks]
    simp
  · exact Or.inl h

theorem foldl_processOne_growth (m : List (String × RawTask)) :
    ∀ (l : List RawTask) (st : EngineState),
      st.orderedTasks.length ≤ (l.foldl (processOne m) st).orderedTasks.length ∧
      ((l.foldl (processOne m) st).changed = true →
        st.changed = true ∨
          st.orderedTasks.length < (l.foldl (processOne m) st).orderedTasks.length) := by
  intro l
  induction l with
  | nil =>
    intro st
    exact ⟨le_refl _, fun h => Or.inl h⟩
  | cons x xs ih =>
    intro st
    rw [List.foldl_cons]
    obtain ⟨ihmono, ihch⟩ := ih (processOne m st x)
    refine ⟨le_trans (processOne_ordered_mono m st x) ihmono, ?_⟩
    intro hch
    rcases ihch hch with h1 | h1
    · rcases processOne_changed m st x h1 with h2 | h2
      · exact Or.inl h2
      · exact Or.inr (lt_of_lt_of_le h2 ihmono)
    · exact Or.inr (lt_of_le_of_lt (processOne_ordered_mono m st x) h1)

/-- A pass that reports progress really did extend the ordered output. -/
theorem runPass_changed (m : List (String × RawTask)) (raw : List RawTask)
    (st : EngineState) (h : (runPass m raw st).changed = true) :
    st.orderedTasks.length < (runPass m raw st).orderedTasks.length := by
  unfold runPass at h ⊢
  rcases (foldl_processOne_growth m raw { st with changed := false }).2 h with h1 | h1
  · simp at h1
  · exact h1

theorem processLoop_not_cond (m : List (String × RawTask)) (raw : List RawTask)
    (fuel : Nat) (st : EngineState)
    (h : ¬(st.orderedTasks.length < raw.length ∧ st.changed = true)) :
    processLoop m raw fuel st = st := by
  cases fuel with
  | zero => rfl
  | succ fuel =>
    rw [processLoop, if_neg h]

/-- With fuel at least `raw.length - st.orderedTasks.length`, the fuelled
relaxation loop reaches the source `while` loop's genuine exit condition:
either every task is placed or the last pass made no progress.  In
particular the fuelled loop computes exactly what the unbounded source loop
computes. -/
theorem processLoop_exit (m : List (String × RawTask)) (raw : List RawTask) :
    ∀ (fuel : Nat) (st : EngineState), raw.length ≤ st.orderedTasks.length + fuel →
      ¬((processLoop m raw fuel st).orderedTasks.length < raw.length ∧
        (processLoop m raw fuel st).changed = true) := by
  intro fuel
  induction fuel with
  | zero =>
    intro st hf
    rw [processLoop]
    intro hcond
    omega
  | succ fuel ih =>
    intro st hf
    rw [processLoop]
    split_ifs with hcond
    · by_cases hch : (runPass m raw st).changed = true
      · refine ih (runPass m raw st) ?_
        have := runPass_changed m raw st hch
        omega
      · rw [processLoop_not_cond m raw fuel _ (fun hc => hch hc.2)]
        intro hc
        exact hch hc.2
    · exact hcond

theorem finalState_exit (raw : List RawTask) :
    ¬((finalState raw).orderedTasks.length < raw.length ∧
      (finalState raw).changed = true) := by
  unfold finalState
  exact processLoop_exit _ raw (raw.length + 1) initState (by simp [initState])

/-- Destructing a successful `processTasks` run: the pre-check passed, all
tasks were placed, and the output is the sorted ordered list. -/
theorem processTasks_ok_eq {raw : List RawTask} {out : List Task}
    (h : processTasks raw = .ok out) :
    out = List.insertionSort taskLEP (finalState raw).orderedTasks ∧
    findMissingDep (buildRawTaskMap raw) raw = none ∧
    raw.length ≤ (finalState raw).orderedTasks.length := by
  unfold processTasks at h
  dsimp only at h
  cases hf : findMissingDep (buildRawTaskMap raw) raw with
  | some p =>
    obtain ⟨a, b⟩ := p
    rw [hf] at h
    dsimp only at h
    cases h
  | none =>
    rw [hf] at h
    dsimp only at h
    split_ifs at h with hlen
    · injection h with h'
      exact ⟨h'.symm, rfl, not_lt.mp hlen⟩

theorem mem_processTasks_ok {raw : List RawTask} {out : List Task} {u : Task}
    (h : processTasks raw = .ok out) :
    u ∈ out ↔ u ∈ (finalState raw).orderedTasks := by
  rw [(processTasks_ok_eq h).1]
  exact List.mem_insertionSort taskLEP

theorem bool_ne_true {b : Bool} (h : ¬b = true) : b = false := by
  cases b
  · rfl
  · exact absurd rfl h

instance : IsTotal Task taskLEP := by
  constructor
  intro a b
  unfold taskLEP taskLE
  by_cases hAB : strLtB (resKey a.resource).data (resKey b.resource).data = true
  · refine Or.inl ?_
    rw [if_pos hAB]
  · by_cases hBA : strLtB (resKey b.resource).data (resKey a.resource).data = true
    · refine Or.inr ?_
      rw [if_pos hBA]
    · rw [if_neg hAB, if_neg hBA, if_neg hBA, if_neg hAB]
      rcases Nat.le_total a.startDate b.startDate with h | h
      · exact Or.inl (decide_eq_true h)
      · exact Or.inr (decide_eq_true h)

instance : IsTrans Task taskLEP := by
  constructor
  intro a b c hab hbc
  unfold taskLEP taskLE at hab hbc ⊢
  by_cases hAB : strLtB (resKey a.resource).data (resKey b.resource).data = true
  · by_cases hBC : strLtB (resKey b.resource).data (resKey c.resource).data = true
    · rw [if_pos (strLtB_trans hAB hBC)]
    · rw [if_neg hBC] at hbc
      by_cases hCB : strLtB (resKey c.resource).data (resKey b.resource).data = true
      · rw [if_pos hCB] at hbc
        exact absurd hbc (by simp)
      · have hBCe : (resKey b.resource).data = (resKey c.resource).data :=
          strLtB_eq_of_not _ _ (bool_ne_true hBC) (bool_ne_true hCB)
        rw [← hBCe]
        rw [if_pos hAB]
  · rw [if_neg hAB] at hab
    by_cases hBA : strLtB (resKey b.resource).data (resKey a.resource).data = true
    · rw [if_pos hBA] at hab
      exact absurd hab (by simp)
    · have hABe : (resKey a.resource).data = (resKey b.resource).data :=
        strLtB_eq_of_not _ _ (bool_ne_true hAB) (bool_ne_true hBA)
      rw [if_neg hBA] at hab
      have hab' : a.startDate ≤ b.startDate := of_decide_eq_true hab
      rw [← hABe] at hbc
      by_cases hAC : strLtB (resKey a.resource).data (resKey c.resource).data = true
      · rw [if_pos hAC]
      · rw [if_neg hAC] at hbc ⊢
        by_cases hCA : strLtB (resKey c.resource).data (resKey a.resource).data = true
        · rw [if_pos hCA] at hbc
          exact absurd hbc (by simp)
        · rw [if_neg hCA] at hbc ⊢
          exact decide_eq_true (le_trans hab' (of_decide_eq_true hbc))

theorem pairwise_mem_or {α : Type} {R : α → α → Prop} :
    ∀ {l : List α}, l.Pairwise R → ∀ {a b : α}, a ∈ l → b ∈ l → a ≠ b →
      R a b ∨ R b a := by
  intro l
  induction l with
  | nil =>
    intro _ a b ha _ _
    exact absurd ha (List.not_mem_nil a)
  | cons x xs ih =>
    intro hp a b ha hb hne
    have hx := (List.pairwise_cons.mp hp).1
    have hxs := (List.pairwise_cons.mp hp).2
    rcases List.mem_cons.mp ha with rfl | ha'
    · rcases List.mem_cons.mp hb with rfl | hb'
      · exact absurd rfl hne
      · exact Or.inl (hx b hb')
    · rcases List.mem_cons.mp hb with rfl | hb'
      · exact Or.inr (hx a ha')
      · exact ih hxs ha' hb' hne

/-
Concrete inputs.  Dates are day numbers since 1970-01-01:
19936 = 2024-08-01 (Thursday), 19942 = 2024-08-07 (Wednesday),
19943 = 2024-08-08 (Thursday), 19948 = 2024-08-13 (Tuesday),
19949 = 2024-08-14 (Wednesday), 19956 = 2024-08-21 (Wednesday).
-/

/-- Worked scenario task A: starts Thursday 2024-08-01, 5 working days. -/
def exA : RawTask := ⟨"A", "A", 19936, 5, [], none⟩

/-- Worked scenario task B: depends on A, requested 2024-08-01, 4 working
days, resource `bob`. -/
def exB : RawTask := ⟨"B", "B", 19936, 4, ["A"], some "bob"⟩

/-- Worked scenario task C: depends on A, requested 2024-08-08, 6 working
days, resource `bob`. -/
def exC : RawTask := ⟨"C", "C", 19943, 6, ["A"], some "bob"⟩

def exTasks : List RawTask := [exA, exB, exC]

/-- Resolved A: `endDate` 2024-08-07, `calendarDuration` 7. -/
def exA' : Task := ⟨"A", "A", 19936, 5, [], none, 19942, 7⟩

/-- Resolved B: effective start 2024-08-08, `endDate` 2024-08-13,
`calendarDuration` 6. -/
def exB' : Task := ⟨"B", "B", 19943, 4, ["A"], some "bob", 19948, 6⟩

/-- Resolved C: effective start 2024-08-14, `endDate` 2024-08-21,
`calendarDuration` 8. -/
def exC' : Task := ⟨"C", "C", 19949, 6, ["A"], some "bob", 19956, 8⟩

theorem processTasks_exTasks_eq :
    processTasks exTasks = Except.ok [exB', exC', exA'] := rfl

/-- Cycle input: A depends on B, B depends on A. -/
def cycA : RawTask := ⟨"A", "A", 19936, 1, ["B"], none⟩

def cycB : RawTask := ⟨"B", "B", 19936, 1, ["A"], none⟩

/-- A task with no resource, first in input order. -/
def ex9N : RawTask := ⟨"n", "n", 19936, 1, [], none⟩

/-- A task whose resource name `~` sorts above the sentinel `zzzzzz`. -/
def ex9T : RawTask := ⟨"t", "t", 19936, 1, [], some "~"⟩

def ex9N' : Task := ⟨"n", "n", 19936, 1, [], none, 19936, 1⟩

def ex9T' : Task := ⟨"t", "t", 19936, 1, [], some "~", 19936, 1⟩

/-- A task referencing a dependency title absent from the input. -/
def exMissing : RawTask := ⟨"A", "A", 19936, 1, ["Z"], none⟩

/-- C1: in every successful resolution, every resolved task starts strictly
after the end date of each of its resolved dependencies (the task each
dependency title resolves to through the raw task map), a gap of at least
one full calendar day. -/
theorem c1_dependency_gap (raw : List RawTask) (out : List Task)
    (hok : processTasks raw = Except.ok out) (t : Task) (ht : t ∈ out)
    (d : String) (hd : d ∈ t.dependencies) :
    ∃ rt, mapGet (buildRawTaskMap raw) d = some rt ∧
      (∃ u, u ∈ out ∧ u.id = rt.id ∧ u.endDate < t.startDate) ∧
      (∀ u, u ∈ out → u.id = rt.id → u.endDate < t.startDate) := by
  have hinv := finalState_inv raw
  have htm := (mem_processTasks_ok hok).mp ht
  obtain ⟨rt, hrt, v, hv, hlt⟩ := hinv.ord_deps t htm d hd
  refine ⟨rt, hrt,
    ⟨v, (mem_processTasks_ok hok).mpr (hinv.tm_mem rt.id v hv),
      hinv.tm_id rt.id v hv, hlt⟩, ?_⟩
  intro u hu hid
  have hu' := (mem_processTasks_ok hok).mp hu
  have huid := hinv.ord_tm u hu'
  rw [hid, hv] at huid
  injection huid with h'
  rw [← h']
  exact hlt

/-- Witness for C1 at the worked scenario: task B's dependency `A`. -/
theorem c1_dependency_gap_witness :
    ∃ rt, mapGet (buildRawTaskMap exTasks) "A" = some rt ∧
      (∃ u, u ∈ [exB', exC', exA'] ∧ u.id = rt.id ∧ u.endDate < exB'.startDate) ∧
      (∀ u, u ∈ [exB', exC', exA'] → u.id = rt.id → u.endDate < exB'.startDate) :=
  c1_dependency_gap exTasks [exB', exC', exA'] processTasks_exTasks_eq exB'
    (by decide) "A" (by decide)

/-- C2: in every successful resolution, distinct tasks sharing a non-empty
resource occupy disjoint `[startDate, endDate]` intervals separated by at
least one day, chained in processing order; the resource ledger only records
truthy resources of committed tasks, and a task with a falsy resource is not
constrained by the ledger at all. -/
theorem c2_resource_exclusivity (raw : List RawTask) (out : List Task)
    (hok : processTasks raw = Except.ok out) :
    (∀ t ∈ out, ∀ u ∈ out, ∀ ρ : String, t.resource = some ρ → u.resource = some ρ →
      ρ ≠ "" → t.id ≠ u.id → t.endDate < u.startDate ∨ u.endDate < t.startDate) ∧
    ((finalState raw).orderedTasks.Pairwise fun t u => ∀ ρ : String,
      t.resource = some ρ → u.resource = some ρ → ρ ≠ "" → t.endDate < u.startDate) ∧
    (∀ (ρ : String) (e : Nat), mapGet (finalState raw).resourceEndDates ρ = some e →
      ρ ≠ "" ∧ ∃ u ∈ out, u.resource = some ρ) ∧
    (∀ (m : List (String × RawTask)) (tm : List (String × Task))
      (L₁ L₂ : List (String × Nat)) (r : RawTask), resTruthy r.resource = false →
      resolveTask m tm L₁ r = resolveTask m tm L₂ r) := by
  have hinv := finalState_inv raw
  refine ⟨?_, hinv.ord_chain, ?_, ?_⟩
  · intro t ht u hu ρ htρ huρ hρne hidne
    have htm := (mem_processTasks_ok hok).mp ht
    have hum := (mem_processTasks_ok hok).mp hu
    have htune : t ≠ u := fun heq => hidne (by rw [heq])
    rcases pairwise_mem_or hinv.ord_chain htm hum htune with hR | hR
    · exact Or.inl (hR ρ htρ huρ hρne)
    · exact Or.inr (hR ρ huρ htρ hρne)
  · intro ρ e hρe
    obtain ⟨hρne, u, hu, huρ⟩ := hinv.ledger_src ρ e hρe
    exact ⟨hρne, u, (mem_processTasks_ok hok).mpr hu, huρ⟩
  · exact fun m tm L₁ L₂ r h => resolveTask_ledger_irrelevant m tm L₁ L₂ r h

/-- Witness for C2 at the worked scenario: tasks B and C share resource
`bob` and have disjoint intervals. -/
theorem c2_resource_exclusivity_witness :
    exB'.endDate < exC'.startDate ∨ exC'.endDate < exB'.startDate :=
  (c2_resource_exclusivity exTasks [exB', exC', exA'] processTasks_exTasks_eq).1
    exB' (by decide) exC' (by decide) "bob" rfl rfl (by decide) (by decide)

/-- C3 counterexample: `addWorkingDays` does not fail on `duration < 1`;
at duration 0 it silently returns the start date (the source returns
`startDate` whenever `duration - 1 < 0`, and no `InvalidDuration` error
exists anywhere in the code). -/
theorem c3_counterexample : addWorkingDays 19936 0 = 19936 := rfl

/-- C3 (amended): for `duration < 1`, `addWorkingDays` returns `start`
unchanged (no error); for `duration >= 1` it returns the date reached by the
day-by-day loop that advances `duration - 1` working days from `start`,
skipping Saturdays and Sundays, counting `start` itself as the first working
day. -/
theorem c3_addWorkingDays_amended (s dur : Nat) :
    (dur < 1 → addWorkingDays s dur = s) ∧
    (1 ≤ dur → addWorkingDays s dur = addWorkingDaysLoop s (dur - 1)) := by
  constructor
  · intro h
    have hz : dur = 0 := by omega
    subst hz
    rfl
  · intro _
    exact addWorkingDays_eq_loop s dur

/-- Witness for C3 (amended) at duration 0 and duration 5. -/
theorem c3_addWorkingDays_amended_witness :
    addWorkingDays 19936 0 = 19936 ∧ addWorkingDays 19936 5 = addWorkingDaysLoop 19936 4 :=
  ⟨(c3_addWorkingDays_amended 19936 0).1 (by decide),
    (c3_addWorkingDays_amended 19936 5).2 (by decide)⟩

/-- C4: if the pre-check passes but the relaxation loop stops with
unresolved tasks remaining, `processTasks` fails with a `CyclicDependency`
error listing exactly the unprocessed task ids, and never returns resolved
tasks. -/
theorem c4_cyclic_dependency (raw : List RawTask)
    (hpre : findMissingDep (buildRawTaskMap raw) raw = none)
    (hstuck : (finalState raw).orderedTasks.length < raw.length) :
    processTasks raw = Except.error (EngineError.cyclicDependency
      ((raw.filter fun t => !((finalState raw).processed.contains t.id)).map (·.id))) ∧
    (∀ i : String,
      i ∈ (raw.filter fun t => !((finalState raw).processed.contains t.id)).map (·.id) ↔
      ∃ t ∈ raw, i = t.id ∧ t.id ∉ (finalState raw).processed) ∧
    (∀ out : List Task, processTasks raw ≠ Except.ok out) := by
  have h1 : processTasks raw = Except.error (EngineError.cyclicDependency
      ((raw.filter fun t => !((finalState raw).processed.contains t.id)).map (·.id))) := by
    unfold processTasks
    dsimp only
    rw [hpre]
    dsimp only
    rw [if_pos hstuck]
  refine ⟨h1, ?_, ?_⟩
  · intro i
    constructor
    · intro hi
      obtain ⟨t, htf, hti⟩ := List.mem_map.mp hi
      obtain ⟨htr, htp⟩ := List.mem_filter.mp htf
      refine ⟨t, htr, hti.symm, ?_⟩
      intro hmemp
      rw [contains_iff_mem.mpr hmemp] at htp
      simp at htp
    · rintro ⟨t, htr, rfl, htnp⟩
      refine List.mem_map.mpr ⟨t, List.mem_filter.mpr ⟨htr, ?_⟩, rfl⟩
      rw [bool_ne_true fun hcc => htnp (contains_iff_mem.mp hcc)]
      rfl
  · intro out hout
    rw [h1] at hout
    cases hout

/-- Witness for C4 at the two-task cycle A↔B. -/
theorem c4_cyclic_dependency_witness :
    processTasks [cycA, cycB] = Except.error (EngineError.cyclicDependency
      (([cycA, cycB].filter
        fun t => !((finalState [cycA, cycB]).processed.contains t.id)).map (·.id))) :=
  (c4_cyclic_dependency [cycA, cycB] (by decide) (by decide)).1

/-- C5: if any task references a dependency title that no raw task bears,
`processTasks` fails with an `UnknownDependency` error naming a referencing
task and the missing dependency, without resolving any task. -/
theorem c5_unknown_dependency (raw : List RawTask)
    (h : ∃ t ∈ raw, ∃ d ∈ t.dependencies, ∀ u ∈ raw, u.title ≠ d) :
    ∃ tt dd, processTasks raw = Except.error (EngineError.unknownDependency dd tt) ∧
      (∃ t ∈ raw, t.title = tt ∧ dd ∈ t.dependencies) ∧
      (∀ u ∈ raw, u.title ≠ dd) := by
  have hne : findMissingDep (buildRawTaskMap raw) raw ≠ none := by
    intro hnone
    obtain ⟨t, htr, d, hd, hmiss⟩ := h
    have hsome := (findMissingDep_none_iff _ raw).mp hnone t htr d hd
    cases hmd : mapGet (buildRawTaskMap raw) d with
    | none =>
      rw [hmd] at hsome
      simp at hsome
    | some rt =>
      obtain ⟨hrtmem, hrttitle⟩ := buildRawTaskMap_some hmd
      exact hmiss rt hrtmem hrttitle
  cases hf : findMissingDep (buildRawTaskMap raw) raw with
  | none => exact absurd hf hne
  | some p =>
    obtain ⟨tt, dd⟩ := p
    obtain ⟨⟨t, htr, htt, hdd⟩, hnone⟩ := findMissingDep_some hf
    refine ⟨tt, dd, ?_, ⟨t, htr, htt, hdd⟩, ?_⟩
    · unfold processTasks
      dsimp only
      rw [hf]
    · intro u hu hut
      have hs := buildRawTaskMap_isSome ⟨u, hu, hut⟩
      rw [hnone] at hs
      simp at hs

/-- Witness for C5: a single task depending on the absent title `Z`. -/
theorem c5_unknown_dependency_witness :
    ∃ tt dd, processTasks [exMissing] =
        Except.error (EngineError.unknownDependency dd tt) ∧
      (∃ t ∈ [exMissing], t.title = tt ∧ dd ∈ t.dependencies) ∧
      (∀ u ∈ [exMissing], u.title ≠ dd) :=
  c5_unknown_dependency [exMissing] (by decide)

/-- C6: in every successful resolution, each resolved task's effective start
date is at least the raw task's requested start date and never falls on a
Saturday or Sunday. -/
theorem c6_effective_start (raw : List RawTask) (out : List Task)
    (hok : processTasks raw = Except.ok out) (t : Task) (ht : t ∈ out) :
    (∃ r ∈ raw, r.id = t.id ∧ r.startDate ≤ t.startDate) ∧
    getDay t.startDate ≠ 0 ∧ getDay t.startDate ≠ 6 := by
  have hinv := finalState_inv raw
  have htm := (mem_processTasks_ok hok).mp ht
  obtain ⟨r, hr, hid, _, _, _, _, hstart⟩ := hinv.ord_raw t htm
  exact ⟨⟨r, hr, hid.symm, hstart⟩, hinv.ord_weekday t htm⟩

/-- Witness for C6 at the worked scenario: task B. -/
theorem c6_effective_start_witness :
    (∃ r ∈ exTasks, r.id = exB'.id ∧ r.startDate ≤ exB'.startDate) ∧
    getDay exB'.startDate ≠ 0 ∧ getDay exB'.startDate ≠ 6 :=
  c6_effective_start exTasks [exB', exC', exA'] processTasks_exTasks_eq exB' (by decide)

/-- C7: the worked three-task scenario resolves exactly as specified:
A (start 2024-08-01, 5 working days) ends 2024-08-07 with calendar
duration 7; B (depends on A, duration 4) starts 2024-08-08, ends
2024-08-13, duration 6; C (depends on A, shares B's resource, requested
2024-08-08, duration 6) starts 2024-08-14, ends 2024-08-21, duration 8. -/
theorem c7_worked_scenario :
    processTasks exTasks = Except.ok [exB', exC', exA'] := rfl

/-- C8: in every successful resolution, each resolved task's calendar
duration is the inclusive day span `(endDate - startDate) + 1`, at least 1,
and a working duration of 1 gives `endDate = startDate`. -/
theorem c8_calendar_duration (raw : List RawTask) (out : List Task)
    (hok : processTasks raw = Except.ok out) (t : Task) (ht : t ∈ out) :
    t.duration = t.endDate - t.startDate + 1 ∧ t.startDate ≤ t.endDate ∧
    1 ≤ t.duration ∧ (t.workingDuration = 1 → t.endDate = t.startDate) := by
  have hinv := finalState_inv raw
  have htm := (mem_processTasks_ok hok).mp ht
  obtain ⟨hend, hdur, hle⟩ := hinv.ord_end t htm
  refine ⟨?_, hle, ?_, ?_⟩
  · rw [hdur, getCalendarDuration_eq _ _ hle]
  · rw [hdur]
    unfold getCalendarDuration
    omega
  · intro h1
    rw [hend, h1]
    exact addWorkingDays_one t.startDate

/-- Witness for C8 at the worked scenario: task C. -/
theorem c8_calendar_duration_witness :
    exC'.duration = exC'.endDate - exC'.startDate + 1 ∧
    exC'.startDate ≤ exC'.endDate ∧ 1 ≤ exC'.duration ∧
    (exC'.workingDuration = 1 → exC'.endDate = exC'.startDate) :=
  c8_calendar_duration exTasks [exB', exC', exA'] processTasks_exTasks_eq exC' (by decide)

/-- C9 counterexample: a task with no resource is sorted before a task whose
resource name `~` is lexicographically above the sentinel `zzzzzz`, so
tasks with no resource are not always placed last. -/
theorem c9_counterexample :
    processTasks [ex9N, ex9T] = Except.ok [ex9N', ex9T'] ∧
    ex9N'.resource = none ∧ ex9T'.resource = some "~" :=
  ⟨rfl, rfl, rfl⟩

/-- C9 (amended): the returned sequence is sorted ascending by the
comparator key — the resource name, with falsy (absent or empty) resources
taking the sentinel key `zzzzzz` — and by effective start date within equal
keys.  Tasks with no resource therefore sort after a resource name only
when that name is lexicographically below `zzzzzz`. -/
theorem c9_sorted_amended (raw : List RawTask) (out : List Task)
    (hok : processTasks raw = Except.ok out) : out.Pairwise taskLEP := by
  rw [(processTasks_ok_eq hok).1]
  exact List.sorted_insertionSort taskLEP _

/-- Witness for C9 (amended) at the worked scenario. -/
theorem c9_sorted_amended_witness : ([exB', exC', exA'] : List Task).Pairwise taskLEP :=
  c9_sorted_amended exTasks [exB', exC', exA'] processTasks_exTasks_eq

/-- C10: `addWorkingDays` maps a non-weekend start and any duration ≥ 1 to a
non-weekend date; consequently every resolved task's end date falls on a
working day. -/
theorem c10_end_weekday :
    (∀ start dur : Nat, getDay start ≠ 0 → getDay start ≠ 6 → 1 ≤ dur →
      getDay (addWorkingDays start dur) ≠ 0 ∧ getDay (addWorkingDays start dur) ≠ 6) ∧
    (∀ (raw : List RawTask) (out : List Task), processTasks raw = Except.ok out →
      ∀ t ∈ out, getDay t.endDate ≠ 0 ∧ getDay t.endDate ≠ 6) := by
  constructor
  · intro s dur h0 h6 _
    exact getDay_addWorkingDays s dur h0 h6
  · intro raw out hok t ht
    have hinv := finalState_inv raw
    have htm := (mem_processTasks_ok hok).mp ht
    obtain ⟨hend, _, _⟩ := hinv.ord_end t htm
    have hwd := hinv.ord_weekday t htm
    rw [hend]
    exact getDay_addWorkingDays _ _ hwd.1 hwd.2

/-- Witness for C10: a Thursday start with 5 working days, and resolved
task A of the worked scenario. -/
theorem c10_end_weekday_witness :
    (getDay (addWorkingDays 19936 5) ≠ 0 ∧ getDay (addWorkingDays 19936 5) ≠ 6) ∧
    (getDay exA'.endDate ≠ 0 ∧ getDay exA'.endDate ≠ 6) :=
  ⟨c10_end_weekday.1 19936 5 (by decide) (by decide) (by decide),
    c10_end_weekday.2 exTasks [exB', exC', exA'] processTasks_exTasks_eq exA' (by decide)⟩

end Ganttify
